import Mathlib

/-!
Shallow embedding of the glass_pumpkin core (`compat.rs`, `rand.rs`,
`error.rs`, `safe_prime.rs`).  A `UInt<N>` value of bit width `w` is embedded
as a `Nat` together with the bound `x < 2 ^ w`; the width is passed explicitly
as the first argument `w` of each operation.  Fallible operations (Rust
panics) return `Option`, with `none` standing for the panic.
-/

namespace GlassPumpkin

/-- Fuel-based helper for `bits`: counts halvings until the value is zero.
The fuel only bounds the recursion; `bitsGo fuel n` is the bit count of `n`
whenever `n ≤ fuel`. -/
def bitsGo : Nat → Nat → Nat
  | 0, _ => 0
  | fuel + 1, n => if n = 0 then 0 else bitsGo fuel (n / 2) + 1

/-- Number of significant bits of a value (the external `UInt::bits`):
`0` for `0`, otherwise `log2 x + 1` (stated as `bits_eq` below; the
definition is kernel-computable). -/
def bits (x : Nat) : Nat := bitsGo x x

theorem bitsGo_eq (fuel : Nat) : ∀ n, n ≤ fuel →
    bitsGo fuel n = if n = 0 then 0 else Nat.log2 n + 1 := by
  induction fuel with
  | zero =>
    intro n hn
    interval_cases n
    rfl
  | succ fuel ih =>
    intro n hn
    rcases Nat.eq_zero_or_pos n with h0 | h0
    · simp [h0, bitsGo]
    · have hhalf : n / 2 ≤ fuel := by omega
      have := ih (n / 2) hhalf
      unfold bitsGo
      rw [if_neg (by omega), this]
      rcases Nat.lt_or_ge n 2 with h2 | h2
      · have hn1 : n = 1 := by omega
        subst hn1
        norm_num
        rw [Nat.log2]
        norm_num
      · have hden : ¬(n / 2 = 0) := by
          have := Nat.div_pos h2 (by omega)
          omega
        rw [if_neg hden, if_neg (by omega)]
        conv_rhs => rw [Nat.log2]
        rw [if_pos h2]

/-- `bits` agrees with the specification `log2 x + 1` (and `0` at `0`). -/
theorem bits_eq (x : Nat) : bits x = if x = 0 then 0 else Nat.log2 x + 1 :=
  bitsGo_eq x x (Nat.le_refl x)

/-- Embedding of `compat.rs::is_bit_set`: returns `false` when
`i >= x.bits()`, otherwise right-shifts by `i` and tests parity. -/
def is_bit_set (x i : Nat) : Bool :=
  if bits x ≤ i then false else decide ((x >>> i) % 2 = 1)

/-- Embedding of `compat.rs::mul_mod`: the exact double-width product
(`mul_wide` then `concat`), reduced modulo the zero-extended modulus
(`promote_nz`), then truncated to the low `w`-bit half (`split`). -/
def mul_mod (w x y m : Nat) : Nat :=
  let wide := x * y
  let r := wide % m
  r % 2 ^ w

/-- The square-and-multiply loop of `compat.rs::modpow`: `i` is the current
bit index, `fuel` the number of remaining indices, `tp` is `this_power` and
`res` is `result`. -/
def modpowGo (w m e : Nat) : Nat → Nat → Nat → Nat → Nat
  | _, 0, _, res => res
  | i, fuel + 1, tp, res =>
    let res' := if is_bit_set e i then mul_mod w res tp m else res
    modpowGo w m e (i + 1) fuel (mul_mod w tp tp m) res'

/-- Embedding of `compat.rs::modpow`: zero base returns the base itself, zero
exponent returns one, otherwise the loop runs over bit indices
`0 .. e.bits()`. -/
def modpow (w x e m : Nat) : Nat :=
  if x = 0 then x
  else if e = 0 then 1
  else modpowGo w m e 0 (bits e) (x % m) 1

/-- Model of the external `crypto_bigint` `random_mod` collaborator: from raw
entropy `d` it yields a value in `[0, m)` (its documented contract: an
unbiased draw strictly below the modulus). -/
def random_mod (d m : Nat) : Nat := d % m

/-- `UInt::saturating_sub` (`Nat` subtraction already saturates at zero). -/
def saturating_sub (x y : Nat) : Nat := x - y

/-- `UInt::saturating_add` at bit width `w`: clamps at the maximum value. -/
def saturating_add (w x y : Nat) : Nat := min (x + y) (2 ^ w - 1)

/-- Embedding of `compat.rs::gen_biguint_range`; `none` models the
`panic!("Zero range")` branch taken on a zero span. -/
def gen_biguint_range (w d low high : Nat) : Option Nat :=
  let span := saturating_sub high low
  if span = 0 then none
  else some (saturating_add w (random_mod d span) low)

/-- The `mask` computed by `compat.rs::gen_biguint_bits`:
`ONE << (bit_size - 1)` at bit width `w` (a shift past the width gives zero;
`bit_size = 0` underflows the `usize` subtraction and likewise ends in the
zero-mask panic path). -/
def gen_bits_mask (w bit_size : Nat) : Nat :=
  if bit_size = 0 then 0 else 2 ^ (bit_size - 1) % 2 ^ w

/-- The `modulo` computed by `compat.rs::gen_biguint_bits`: `mask << 1` when
that is non-zero, otherwise the fallback `NonZero::MAX = 2 ^ w - 1`. -/
def gen_bits_modulo (w bit_size : Nat) : Nat :=
  if gen_bits_mask w bit_size * 2 % 2 ^ w = 0 then 2 ^ w - 1
  else gen_bits_mask w bit_size * 2 % 2 ^ w

/-- Embedding of `compat.rs::gen_biguint_bits`; `none` models
`panic!("too many bits for type")`. -/
def gen_biguint_bits (w d bit_size : Nat) : Option Nat :=
  if gen_bits_mask w bit_size = 0 then none
  else some (random_mod d (gen_bits_modulo w bit_size) ||| gen_bits_mask w bit_size)

/-- Number of raw draws in `[0, modulo)` that `gen_biguint_bits` maps to the
result `v`; the map applied to a draw is `d ↦ d ||| mask`. -/
def preimCount (w bit_size v : Nat) : Nat :=
  ((Finset.range (gen_bits_modulo w bit_size)).filter
    (fun d => d ||| gen_bits_mask w bit_size = v)).card

/-- C2: for operands below `2 ^ w` and a non-zero modulus below `2 ^ w`,
`mul_mod` returns `(x * y) % m` exactly: the double-width product is exact
(bounded by `2 ^ w * 2 ^ w`), and the high half of the double-width remainder
is zero, so the final truncation is lossless. -/
theorem mul_mod_spec (w x y m : Nat) (hx : x < 2 ^ w) (hy : y < 2 ^ w)
    (hm0 : m ≠ 0) (hm : m < 2 ^ w) :
    mul_mod w x y m = x * y % m ∧ x * y < 2 ^ w * 2 ^ w ∧ x * y % m / 2 ^ w = 0 := by
  have h1 : x * y % m < 2 ^ w :=
    Nat.lt_trans (Nat.mod_lt _ (Nat.pos_of_ne_zero hm0)) hm
  refine ⟨Nat.mod_eq_of_lt h1, ?_, Nat.div_eq_of_lt h1⟩
  exact Nat.mul_lt_mul'' hx hy

/-- Witness for C2 at `w = 4`, `x = 3`, `y = 5`, `m = 7`. -/
theorem mul_mod_spec_witness :
    mul_mod 4 3 5 7 = 3 * 5 % 7 ∧ 3 * 5 < 2 ^ 4 * 2 ^ 4 ∧ 3 * 5 % 7 / 2 ^ 4 = 0 :=
  mul_mod_spec 4 3 5 7 (by decide) (by decide) (by decide) (by decide)

/-- C3: a zero base makes `modpow` return zero for every exponent and every
non-zero modulus, including exponent zero. -/
theorem modpow_zero_base (w e m : Nat) (hm : m ≠ 0) : modpow w 0 e m = 0 := by
  simp [modpow]

/-- Witness for C3 at `w = 4`, `e = 0`, `m = 7`. -/
theorem modpow_zero_base_witness : modpow 4 0 0 7 = 0 :=
  modpow_zero_base 4 0 7 (by decide)

/-- `is_bit_set` computes the `i`-th binary digit (shared helper). -/
theorem is_bit_set_testBit (x i : Nat) : is_bit_set x i = Nat.testBit x i := by
  unfold is_bit_set
  split
  · next hle =>
    rcases Nat.eq_zero_or_pos x with hx | hx
    · simp [hx]
    · have hxb : x < 2 ^ i := by
        have h1 : x < 2 ^ (Nat.log2 x + 1) := Nat.lt_log2_self
        have h2 : Nat.log2 x + 1 ≤ i := by
          have : bits x = Nat.log2 x + 1 := by
            rw [bits_eq, if_neg (by omega)]
          omega
        exact Nat.lt_of_lt_of_le h1 (Nat.pow_le_pow_right (by omega) h2)
      rw [Nat.testBit_lt_two_pow hxb]
  · rw [Nat.testBit_to_div_mod, Nat.shiftRight_eq_div_pow]

/-- C9: `is_bit_set x i` agrees with the `i`-th binary digit of `x` and is
`false` whenever `i` is at least `bits x`; on the literal
`0b1010111100000101` the set bits are exactly `{0, 2, 8, 9, 10, 11, 13, 15}`. -/
theorem is_bit_set_spec :
    (∀ x i, is_bit_set x i = Nat.testBit x i ∧ (bits x ≤ i → is_bit_set x i = false)) ∧
    (∀ i, i < 16 →
      is_bit_set 0b1010111100000101 i =
        decide (i = 0 ∨ i = 2 ∨ i = 8 ∨ i = 9 ∨ i = 10 ∨ i = 11 ∨ i = 13 ∨ i = 15)) := by
  constructor
  · intro x i
    refine ⟨is_bit_set_testBit x i, fun h => ?_⟩
    unfold is_bit_set
    rw [if_pos h]
  · intro i _
    interval_cases i <;> decide

/-- Witness for C9: the general clause applied at `x = 44805`, `i = 20`
(an index past the bit length). -/
theorem is_bit_set_spec_witness :
    is_bit_set 44805 20 = Nat.testBit 44805 20 ∧
      (bits 44805 ≤ 20 → is_bit_set 44805 20 = false) :=
  is_bit_set_spec.1 44805 20

/-- C4: on a non-empty range `[low, high)` with `high` representable,
`gen_biguint_range` returns a value in the range; on every empty range
`[l, l)`, whatever the entropy, it takes the panic branch and returns no
value. -/
theorem gen_biguint_range_spec (w d low high : Nat) (hlh : low < high)
    (hw : high < 2 ^ w) :
    (∃ v, gen_biguint_range w d low high = some v ∧ low ≤ v ∧ v < high) ∧
    (∀ e l, gen_biguint_range w e l l = none) := by
  constructor
  · have hspan : ¬(high - low = 0) := by omega
    have hmod : d % (high - low) < high - low := Nat.mod_lt _ (by omega)
    refine ⟨saturating_add w (random_mod d (high - low)) low, ?_, ?_, ?_⟩
    · simp only [gen_biguint_range, saturating_sub]
      rw [if_neg hspan]
    · simp only [saturating_add, random_mod]
      omega
    · simp only [saturating_add, random_mod]
      omega
  · intro e l
    simp [gen_biguint_range, saturating_sub]

/-- Witness for C4 at `w = 4`, `d = 9`, `low = 2`, `high = 5`. -/
theorem gen_biguint_range_spec_witness :
    (∃ v, gen_biguint_range 4 9 2 5 = some v ∧ 2 ≤ v ∧ v < 5) ∧
    (∀ e l, gen_biguint_range 4 e l l = none) :=
  gen_biguint_range_spec 4 9 2 5 (by decide) (by decide)

/-- For `1 ≤ bit_size ≤ w` the mask is exactly `2 ^ (bit_size - 1)`. -/
theorem gen_bits_mask_eq (w bit_size : Nat) (h1 : 1 ≤ bit_size) (h2 : bit_size ≤ w) :
    gen_bits_mask w bit_size = 2 ^ (bit_size - 1) := by
  unfold gen_bits_mask
  rw [if_neg (by omega)]
  exact Nat.mod_eq_of_lt (Nat.pow_lt_pow_right one_lt_two (by omega))

/-- Below the full width the modulo is `2 ^ bit_size`. -/
theorem gen_bits_modulo_eq_of_lt (w bit_size : Nat) (h1 : 1 ≤ bit_size)
    (h2 : bit_size < w) :
    gen_bits_modulo w bit_size = 2 ^ bit_size := by
  have hmask := gen_bits_mask_eq w bit_size h1 (by omega)
  have hdouble : 2 ^ (bit_size - 1) * 2 = 2 ^ bit_size := by
    rw [← pow_succ]
    congr 1
    omega
  have hmod : 2 ^ bit_size % 2 ^ w = 2 ^ bit_size :=
    Nat.mod_eq_of_lt (Nat.pow_lt_pow_right one_lt_two h2)
  unfold gen_bits_modulo
  rw [hmask, hdouble, hmod, if_neg (Nat.pos_pow_of_pos bit_size (by omega)).ne']

/-- At the full width the modulo falls back to `NonZero::MAX = 2 ^ w - 1`. -/
theorem gen_bits_modulo_eq_of_eq (w : Nat) (h1 : 1 ≤ w) :
    gen_bits_modulo w w = 2 ^ w - 1 := by
  have hmask := gen_bits_mask_eq w w h1 (Nat.le_refl w)
  have hdouble : 2 ^ (w - 1) * 2 = 2 ^ w := by
    rw [← pow_succ]
    congr 1
    omega
  unfold gen_bits_modulo
  rw [hmask, hdouble, Nat.mod_self, if_pos rfl]

/-- C5: for a valid `bit_size` (between `1` and the width `w`),
`gen_biguint_bits` succeeds and returns a value in
`[2 ^ (bit_size - 1), 2 ^ bit_size)` whose bit `bit_size - 1` is set and
whose bit length is exactly `bit_size`. -/
theorem gen_biguint_bits_spec (w d bit_size : Nat) (h1 : 1 ≤ bit_size)
    (h2 : bit_size ≤ w) :
    ∃ v, gen_biguint_bits w d bit_size = some v ∧
      2 ^ (bit_size - 1) ≤ v ∧ v < 2 ^ bit_size ∧ bits v = bit_size ∧
      Nat.testBit v (bit_size - 1) = true := by
  have hmask := gen_bits_mask_eq w bit_size h1 h2
  have hmaskne : gen_bits_mask w bit_size ≠ 0 := by
    rw [hmask]
    exact (Nat.pos_pow_of_pos _ (by omega)).ne'
  set v := random_mod d (gen_bits_modulo w bit_size) ||| gen_bits_mask w bit_size with hv
  have hsome : gen_biguint_bits w d bit_size = some v := by
    unfold gen_biguint_bits
    rw [if_neg hmaskne]
  have hdraw : random_mod d (gen_bits_modulo w bit_size) < 2 ^ bit_size := by
    unfold random_mod
    rcases Nat.lt_or_ge bit_size w with hlt | hge
    · rw [gen_bits_modulo_eq_of_lt w bit_size h1 hlt]
      exact Nat.mod_lt _ (Nat.pos_pow_of_pos _ (by omega))
    · have hbw : bit_size = w := by omega
      subst hbw
      rw [gen_bits_modulo_eq_of_eq bit_size h1]
      have hmodpos : 0 < 2 ^ bit_size - 1 := by
        have : 2 ≤ 2 ^ bit_size := by
          calc 2 = 2 ^ 1 := by norm_num
          _ ≤ 2 ^ bit_size := Nat.pow_le_pow_right (by omega) h1
        omega
      have := Nat.mod_lt d hmodpos
      omega
  have htop : Nat.testBit v (bit_size - 1) = true := by
    rw [hv, Nat.testBit_or, hmask, Nat.testBit_two_pow_self, Bool.or_true]
  have hlow : 2 ^ (bit_size - 1) ≤ v := Nat.testBit_implies_ge htop
  have hhigh : v < 2 ^ bit_size := by
    rw [hv]
    apply Nat.or_lt_two_pow hdraw
    rw [hmask]
    exact Nat.pow_lt_pow_right one_lt_two (by omega)
  refine ⟨v, hsome, hlow, hhigh, ?_, htop⟩
  have hvne : ¬(v = 0) := by
    have : 0 < 2 ^ (bit_size - 1) := Nat.pos_pow_of_pos _ (by omega)
    omega
  rw [bits_eq, if_neg hvne, Nat.log2_eq_log_two]
  have hlog : Nat.log 2 v = bit_size - 1 := by
    apply Nat.log_eq_of_pow_le_of_lt_pow hlow
    have : bit_size - 1 + 1 = bit_size := by omega
    rw [this]
    exact hhigh
  omega

/-- Witness for C5 at `w = 4`, `d = 7`, `bit_size = 4` (the boundary case
where the modulo falls back to the maximum). -/
theorem gen_biguint_bits_spec_witness :
    ∃ v, gen_biguint_bits 4 7 4 = some v ∧
      2 ^ (4 - 1) ≤ v ∧ v < 2 ^ 4 ∧ bits v = 4 ∧ Nat.testBit v (4 - 1) = true :=
  gen_biguint_bits_spec 4 7 4 (by decide) (by decide)

/-- With a non-zero modulus below `2 ^ w`, the final truncation in `mul_mod`
is the identity (shared helper). -/
theorem mul_mod_eq (w x y m : Nat) (hm0 : m ≠ 0) (hmw : m < 2 ^ w) :
    mul_mod w x y m = x * y % m :=
  Nat.mod_eq_of_lt (Nat.lt_trans (Nat.mod_lt _ (Nat.pos_of_ne_zero hm0)) hmw)

/-- Reference modular exponentiation by repeated modular multiplication,
written from the spec's words (the independent reference routine the spec
asks `modpow` to agree with). -/
def refModPow (x m : Nat) : Nat → Nat
  | 0 => 1 % m
  | e + 1 => refModPow x m e * x % m

/-- The reference routine computes `x ^ e % m`. -/
theorem refModPow_eq (x m : Nat) : ∀ e, refModPow x m e = x ^ e % m := by
  intro e
  induction e with
  | zero => rfl
  | succ e ih =>
    show refModPow x m e * x % m = x ^ (e + 1) % m
    rw [ih, pow_succ]
    exact (Nat.mod_modEq (x ^ e) m).mul_right x

/-- Invariant of the square-and-multiply loop: with reduced accumulators,
running the loop from bit index `i` for `fuel` steps multiplies `res` by
`tp` raised to the `fuel`-bit window of `e` starting at bit `i`. -/
theorem modpowGo_eq (w m e : Nat) (hm : 1 < m) (hmw : m < 2 ^ w) :
    ∀ fuel i tp res, tp < m → res < m →
      modpowGo w m e i fuel tp res = res * tp ^ (e / 2 ^ i % 2 ^ fuel) % m := by
  intro fuel
  induction fuel with
  | zero =>
    intro i tp res _ hres
    show res = res * tp ^ (e / 2 ^ i % 1) % m
    rw [Nat.mod_one, pow_zero, mul_one, Nat.mod_eq_of_lt hres]
  | succ fuel ih =>
    intro i tp res htp hres
    have hm0 : m ≠ 0 := by omega
    have hstep : modpowGo w m e i (fuel + 1) tp res
        = modpowGo w m e (i + 1) fuel (mul_mod w tp tp m)
            (if is_bit_set e i then mul_mod w res tp m else res) := rfl
    have htp' : mul_mod w tp tp m < m := by
      rw [mul_mod_eq w tp tp m hm0 hmw]
      exact Nat.mod_lt _ (by omega)
    have hres' : (if is_bit_set e i then mul_mod w res tp m else res) < m := by
      split
      · rw [mul_mod_eq w res tp m hm0 hmw]
        exact Nat.mod_lt _ (by omega)
      · exact hres
    rw [hstep, ih (i + 1) _ _ htp' hres', mul_mod_eq w tp tp m hm0 hmw]
    have hq : e / 2 ^ (i + 1) = e / 2 ^ i / 2 := by
      rw [Nat.div_div_eq_div_mul, ← pow_succ]
    have hsplit : e / 2 ^ i % 2 ^ (fuel + 1)
        = e / 2 ^ i % 2 + 2 * (e / 2 ^ i / 2 % 2 ^ fuel) := by
      rw [pow_succ']
      exact Nat.mod_mul
    have hbit : is_bit_set e i = decide (e / 2 ^ i % 2 = 1) := by
      rw [is_bit_set_testBit, Nat.testBit_to_div_mod]
    rw [hq, hsplit, hbit]
    rcases Nat.mod_two_eq_zero_or_one (e / 2 ^ i) with hb | hb <;> rw [hb]
    · norm_num
      show res * (tp * tp % m) ^ (e / 2 ^ i / 2 % 2 ^ fuel) % m
          = res * tp ^ (2 * (e / 2 ^ i / 2 % 2 ^ fuel)) % m
      have hcong : res * (tp * tp % m) ^ (e / 2 ^ i / 2 % 2 ^ fuel)
          ≡ res * tp ^ (2 * (e / 2 ^ i / 2 % 2 ^ fuel)) [MOD m] := by
        calc res * (tp * tp % m) ^ (e / 2 ^ i / 2 % 2 ^ fuel)
            ≡ res * (tp * tp) ^ (e / 2 ^ i / 2 % 2 ^ fuel) [MOD m] :=
              (((Nat.mod_modEq (tp * tp) m).pow _).mul_left res)
          _ = res * tp ^ (2 * (e / 2 ^ i / 2 % 2 ^ fuel)) := by
              rw [Nat.mul_comm 2, pow_mul, pow_two]
              ring
      exact hcong
    · norm_num
      rw [mul_mod_eq w res tp m hm0 hmw]
      have hcong : res * tp % m * (tp * tp % m) ^ (e / 2 ^ i / 2 % 2 ^ fuel)
          ≡ res * tp ^ (1 + 2 * (e / 2 ^ i / 2 % 2 ^ fuel)) [MOD m] := by
        calc res * tp % m * (tp * tp % m) ^ (e / 2 ^ i / 2 % 2 ^ fuel)
            ≡ res * tp * (tp * tp) ^ (e / 2 ^ i / 2 % 2 ^ fuel) [MOD m] :=
              Nat.ModEq.mul (Nat.mod_modEq (res * tp) m) ((Nat.mod_modEq (tp * tp) m).pow _)
          _ = res * tp ^ (1 + 2 * (e / 2 ^ i / 2 % 2 ^ fuel)) := by
              rw [pow_add, pow_one, Nat.mul_comm 2, pow_mul, pow_two]
              ring
      exact hcong

/-- C1: for non-zero base and exponent and a modulus greater than one (all
width-`w` values), `modpow` computes `x ^ e % m` and agrees with the
reference repeated-multiplication routine. -/
theorem modpow_spec (w x e m : Nat) (hx : x ≠ 0) (he : e ≠ 0) (hm : 1 < m)
    (hxw : x < 2 ^ w) (hew : e < 2 ^ w) (hmw : m < 2 ^ w) :
    modpow w x e m = x ^ e % m ∧ modpow w x e m = refModPow x m e := by
  have hmain : modpow w x e m = x ^ e % m := by
    unfold modpow
    rw [if_neg hx, if_neg he]
    have htp : x % m < m := Nat.mod_lt _ (by omega)
    rw [modpowGo_eq w m e hm hmw (bits e) 0 (x % m) 1 htp (by omega)]
    rw [pow_zero, Nat.div_one, one_mul]
    have hebits : e % 2 ^ bits e = e := by
      apply Nat.mod_eq_of_lt
      rw [bits_eq, if_neg he]
      exact Nat.lt_log2_self
    rw [hebits, ← Nat.pow_mod]
  exact ⟨hmain, by rw [hmain, refModPow_eq]⟩

/-- Witness for C1 at `w = 4`, `x = 3`, `e = 5`, `m = 7`. -/
theorem modpow_spec_witness :
    modpow 4 3 5 7 = 3 ^ 5 % 7 ∧ modpow 4 3 5 7 = refModPow 3 7 5 :=
  modpow_spec 4 3 5 7 (by decide) (by decide) (by decide) (by decide) (by decide)
    (by decide)

/-- With modulus one, every `mul_mod` product collapses to zero, so the loop
returns zero as soon as any bit in the scanned window is set. -/
theorem modpowGo_one (w e : Nat) : ∀ fuel i tp res,
    modpowGo w 1 e i fuel tp res
      = if ∃ j, j < fuel ∧ is_bit_set e (i + j) = true then 0 else res := by
  intro fuel
  induction fuel with
  | zero =>
    intro i tp res
    simp [modpowGo]
  | succ fuel ih =>
    intro i tp res
    have hmm : ∀ a b : Nat, mul_mod w a b 1 = 0 := by
      intro a b
      simp [mul_mod, Nat.mod_one]
    have hstep : modpowGo w 1 e i (fuel + 1) tp res
        = modpowGo w 1 e (i + 1) fuel (mul_mod w tp tp 1)
            (if is_bit_set e i then mul_mod w res tp 1 else res) := rfl
    rw [hstep, ih]
    by_cases hbit : is_bit_set e i = true
    · rw [if_pos hbit, hmm]
      have hrhs : ∃ j, j < fuel + 1 ∧ is_bit_set e (i + j) = true :=
        ⟨0, by omega, by rw [Nat.add_zero]; exact hbit⟩
      rw [if_pos hrhs]
      split <;> rfl
    · rw [if_neg hbit]
      have hiff : (∃ j, j < fuel ∧ is_bit_set e (i + 1 + j) = true)
          ↔ (∃ j, j < fuel + 1 ∧ is_bit_set e (i + j) = true) := by
        constructor
        · rintro ⟨j, hj, hb⟩
          exact ⟨j + 1, by omega, by rw [show i + (j + 1) = i + 1 + j by omega]; exact hb⟩
        · rintro ⟨j, hj, hb⟩
          rcases Nat.eq_zero_or_pos j with h0 | h0
          · rw [h0, Nat.add_zero] at hb
            exact absurd hb hbit
          · exact ⟨j - 1, by omega, by rw [show i + 1 + (j - 1) = i + j by omega]; exact hb⟩
      by_cases hex : ∃ j, j < fuel ∧ is_bit_set e (i + 1 + j) = true
      · rw [if_pos hex, if_pos (hiff.mp hex)]
      · rw [if_neg hex, if_neg (fun h => hex (hiff.mpr h))]

/-- A non-zero value has its top bit, at index `bits - 1`, set. -/
theorem is_bit_set_top (e : Nat) (he : e ≠ 0) : is_bit_set e (bits e - 1) = true := by
  have hb : bits e = Nat.log2 e + 1 := by rw [bits_eq, if_neg he]
  rw [is_bit_set_testBit, hb, Nat.add_sub_cancel, Nat.testBit_to_div_mod]
  have hle : 2 ^ Nat.log2 e ≤ e := Nat.log2_self_le he
  have hlt : e < 2 ^ (Nat.log2 e + 1) := Nat.lt_log2_self
  have hpos : 0 < 2 ^ Nat.log2 e := Nat.pos_pow_of_pos _ (by omega)
  have hdiv : e / 2 ^ Nat.log2 e = 1 := by
    have h1 : 1 ≤ e / 2 ^ Nat.log2 e := (Nat.one_le_div_iff hpos).mpr hle
    have h2 : e / 2 ^ Nat.log2 e < 2 := by
      rw [Nat.div_lt_iff_lt_mul hpos]
      rw [pow_succ] at hlt
      omega
    omega
  rw [hdiv]
  decide

/-- C10: a non-zero base with exponent zero yields the constant one, even for
modulus one — where the result equals the modulus instead of the reduced
residue `x ^ 0 % 1 = 0` — and that situation is the only one in which the
result is not strictly below the modulus. -/
theorem modpow_zero_exp_spec (w x e m : Nat) (hxw : x < 2 ^ w) (hew : e < 2 ^ w)
    (hm0 : m ≠ 0) (hmw : m < 2 ^ w) :
    (x ≠ 0 → modpow w x 0 m = 1) ∧
    (x ≠ 0 → modpow w x 0 1 = 1 ∧ x ^ 0 % 1 = 0) ∧
    (¬(x ≠ 0 ∧ e = 0 ∧ m = 1) → modpow w x e m < m) := by
  have hzero : ∀ m', x ≠ 0 → modpow w x 0 m' = 1 := by
    intro m' hx
    unfold modpow
    rw [if_neg hx, if_pos rfl]
  refine ⟨hzero m, fun hx => ⟨hzero 1 hx, by simp⟩, ?_⟩
  intro hnot
  rcases Nat.eq_zero_or_pos x with hx0 | hx0
  · rw [hx0]
    unfold modpow
    rw [if_pos rfl]
    omega
  · rcases Nat.eq_zero_or_pos e with he0 | he0
    · have hm1 : m ≠ 1 := fun h => hnot ⟨by omega, he0, h⟩
      rw [he0, hzero m (by omega)]
      omega
    · rcases Nat.lt_or_ge 1 m with hm1 | hm1
      · unfold modpow
        rw [if_neg (by omega), if_neg (by omega)]
        rw [modpowGo_eq w m e hm1 hmw (bits e) 0 (x % m) 1 (Nat.mod_lt _ (by omega))
          (by omega)]
        exact Nat.mod_lt _ (by omega)
      · have hm1' : m = 1 := by omega
        subst hm1'
        unfold modpow
        rw [if_neg (by omega), if_neg (by omega), modpowGo_one]
        rw [if_pos ?_]
        · omega
        · have hbits : 1 ≤ bits e := by
            rw [bits_eq, if_neg (by omega)]
            omega
          exact ⟨bits e - 1, by omega,
            by rw [Nat.zero_add]; exact is_bit_set_top e (by omega)⟩

/-- Witness for C10 at `w = 4`, `x = 3`, `e = 5`, `m = 7`. -/
theorem modpow_zero_exp_spec_witness :
    ((3 : Nat) ≠ 0 → modpow 4 3 0 7 = 1) ∧
    ((3 : Nat) ≠ 0 → modpow 4 3 0 1 = 1 ∧ (3 : Nat) ^ 0 % 1 = 0) ∧
    (¬((3 : Nat) ≠ 0 ∧ (5 : Nat) = 0 ∧ (7 : Nat) = 1) → modpow 4 3 5 7 < 7) :=
  modpow_zero_exp_spec 4 3 5 7 (by decide) (by decide) (by decide) (by decide)

/-- A value lying in `[2 ^ k, 2 ^ (k + 1))` has bit `k` set. -/
theorem testBit_of_bounds (k v : Nat) (h1 : 2 ^ k ≤ v) (h2 : v < 2 ^ (k + 1)) :
    Nat.testBit v k = true := by
  rw [Nat.testBit_to_div_mod]
  have hpos : 0 < 2 ^ k := Nat.pos_pow_of_pos _ (by omega)
  have hdiv : v / 2 ^ k = 1 := by
    have ha : 1 ≤ v / 2 ^ k := (Nat.one_le_div_iff hpos).mpr h1
    have hb : v / 2 ^ k < 2 := by
      rw [Nat.div_lt_iff_lt_mul hpos]
      rw [pow_succ] at h2
      omega
    omega
  rw [hdiv]
  decide

/-- The two preimages of `v` under `d ↦ d ||| 2 ^ k` among `(k + 1)`-bit
values: `v` itself and `v` with bit `k` cleared. -/
theorem lor_single_bit (k v d : Nat) (hd : d < 2 ^ (k + 1)) (hv1 : 2 ^ k ≤ v)
    (hv2 : v < 2 ^ (k + 1)) : d ||| 2 ^ k = v ↔ d = v ∨ d = v - 2 ^ k := by
  have hpos : 0 < 2 ^ k := Nat.pos_pow_of_pos _ (by omega)
  have hself : ∀ x : Nat, Nat.testBit x k = true → x ||| 2 ^ k = x := by
    intro x htb
    apply Nat.eq_of_testBit_eq
    intro i
    rw [Nat.testBit_or]
    rcases eq_or_ne k i with hik | hik
    · subst hik
      rw [Nat.testBit_two_pow_self, htb]
      rfl
    · rw [Nat.testBit_two_pow_of_ne hik]
      exact Bool.or_false _
  have hadd : ∀ x : Nat, x < 2 ^ k → x ||| 2 ^ k = 2 ^ k + x := by
    intro x hx
    rw [Nat.or_comm]
    have h := Nat.mul_add_lt_is_or hx 1
    rw [Nat.mul_one] at h
    exact h.symm
  constructor
  · intro heq
    by_cases htb : Nat.testBit d k = true
    · left
      rw [← heq, hself d htb]
    · right
      have hdk : d < 2 ^ k := by
        rw [Nat.testBit_to_div_mod] at htb
        have h2 : d / 2 ^ k < 2 := by
          rw [Nat.div_lt_iff_lt_mul hpos]
          rw [pow_succ] at hd
          omega
        have h01 := Nat.le_one_iff_eq_zero_or_eq_one.mp (Nat.lt_succ_iff.mp h2)
        rcases h01 with h0 | h1
        · have hmod := Nat.mod_lt d hpos
          have hdm := Nat.div_add_mod d (2 ^ k)
          rw [h0] at hdm
          omega
        · rw [h1] at htb
          exact absurd (by decide) htb
      rw [hadd d hdk] at heq
      omega
  · rintro (hd1 | hd2)
    · rw [hd1]
      exact hself v (testBit_of_bounds k v hv1 hv2)
    · rw [hd2, hadd (v - 2 ^ k) (by rw [pow_succ] at hv2; omega)]
      omega

/-- Preimage count of `v` under `d ↦ d ||| 2 ^ k` over `[0, n)`: two when
both preimages are below `n`, one when only the cleared-bit preimage is. -/
theorem preim_card (k n v : Nat) (hn : n ≤ 2 ^ (k + 1)) (hv1 : 2 ^ k ≤ v)
    (hv2 : v < 2 ^ (k + 1)) (hvk : v - 2 ^ k < n) :
    ((Finset.range n).filter (fun d => d ||| 2 ^ k = v)).card
      = if v < n then 2 else 1 := by
  have hpos : 0 < 2 ^ k := Nat.pos_pow_of_pos _ (by omega)
  have hchar : ∀ d ∈ Finset.range n, (d ||| 2 ^ k = v ↔ d = v ∨ d = v - 2 ^ k) := by
    intro d hd
    rw [Finset.mem_range] at hd
    exact lor_single_bit k v d (by omega) hv1 hv2
  rw [Finset.filter_congr hchar, Finset.filter_or, Finset.filter_eq', Finset.filter_eq',
    if_pos (Finset.mem_range.mpr hvk)]
  have hne : ¬(v - 2 ^ k = v) := by omega
  by_cases hvn : v < n
  · rw [if_pos (Finset.mem_range.mpr hvn), if_pos hvn]
    rw [Finset.card_union_of_disjoint (by simp [Finset.disjoint_singleton_left, hne])]
    simp
  · rw [if_neg (fun h => hvn (Finset.mem_range.mp h)), if_neg hvn]
    simp

/-- C6 counterexample: at the boundary `bit_size = w` (here `w = 2`), two
values in `[2 ^ (bit_size - 1), 2 ^ bit_size)` have different numbers of
preimage draws, so the output of `gen_biguint_bits` is not uniform there. -/
theorem gen_bits_uniform_counterexample :
    1 ≤ 2 ∧ (2 : Nat) ≤ 2 ∧ 2 ^ (2 - 1) ≤ (2 : Nat) ∧ (2 : Nat) < 2 ^ 2 ∧
    2 ^ (2 - 1) ≤ (3 : Nat) ∧ (3 : Nat) < 2 ^ 2 ∧
    preimCount 2 2 2 ≠ preimCount 2 2 3 := by
  decide

/-- C6 amended: below the full width every value with exactly `bit_size`
significant bits has exactly two preimage draws (so the output is uniform);
at the boundary `bit_size = w` the all-ones value `2 ^ w - 1` has a single
preimage draw while every other value keeps two. -/
theorem gen_bits_uniform_amended :
    (∀ w bit_size v, 1 ≤ bit_size → bit_size < w →
      2 ^ (bit_size - 1) ≤ v → v < 2 ^ bit_size → preimCount w bit_size v = 2) ∧
    (∀ w v, 1 ≤ w → 2 ^ (w - 1) ≤ v → v < 2 ^ w →
      preimCount w w v = if v = 2 ^ w - 1 then 1 else 2) := by
  constructor
  · intro w bit_size v h1 h2 hv1 hv2
    obtain ⟨k, rfl⟩ : ∃ k, bit_size = k + 1 := ⟨bit_size - 1, by omega⟩
    rw [Nat.add_sub_cancel] at hv1
    unfold preimCount
    rw [gen_bits_mask_eq w (k + 1) h1 (by omega), Nat.add_sub_cancel,
      gen_bits_modulo_eq_of_lt w (k + 1) h1 h2]
    rw [preim_card k (2 ^ (k + 1)) v (Nat.le_refl _) hv1 hv2 (by omega)]
    rw [if_pos hv2]
  · intro w v h1 hv1 hv2
    obtain ⟨k, rfl⟩ : ∃ k, w = k + 1 := ⟨w - 1, by omega⟩
    rw [Nat.add_sub_cancel] at hv1
    unfold preimCount
    rw [gen_bits_mask_eq (k + 1) (k + 1) h1 (Nat.le_refl _), Nat.add_sub_cancel,
      gen_bits_modulo_eq_of_eq (k + 1) h1]
    have hpos : 0 < 2 ^ k := Nat.pos_pow_of_pos _ (by omega)
    have hk1 : (2 : Nat) ≤ 2 ^ (k + 1) := by
      calc (2 : Nat) = 2 ^ 1 := by norm_num
      _ ≤ 2 ^ (k + 1) := Nat.pow_le_pow_right (by omega) (by omega)
    rw [preim_card k (2 ^ (k + 1) - 1) v (by omega) hv1 hv2 (by rw [pow_succ] at hv2 ⊢; omega)]
    by_cases hmax : v = 2 ^ (k + 1) - 1
    · rw [if_pos hmax, if_neg (by omega)]
    · rw [if_neg hmax, if_pos (by omega)]

/-- Witness for the amended C6: both clauses applied at concrete inputs
(`w = 3, bit_size = 2, v = 2` and `w = 2, v = 3`). -/
theorem gen_bits_uniform_amended_witness :
    preimCount 3 2 2 = 2 ∧
    preimCount 2 2 3 = (if (3 : Nat) = 2 ^ 2 - 1 then 1 else 2) :=
  ⟨gen_bits_uniform_amended.1 3 2 2 (by decide) (by decide) (by decide) (by decide),
   gen_bits_uniform_amended.2 2 3 (by decide) (by decide) (by decide)⟩

/-- Success and bounds of `gen_biguint_range` on a non-empty range
(shared helper). -/
theorem gen_range_bounds (w d low high : Nat) (hlh : low < high) (hw : high < 2 ^ w) :
    ∃ v, gen_biguint_range w d low high = some v ∧ low ≤ v ∧ v < high := by
  have hspan : ¬(high - low = 0) := by omega
  have hmod : d % (high - low) < high - low := Nat.mod_lt _ (by omega)
  refine ⟨saturating_add w (random_mod d (high - low)) low, ?_, ?_, ?_⟩
  · simp only [gen_biguint_range, saturating_sub]
    rw [if_neg hspan]
  · simp only [saturating_add, random_mod]
    omega
  · simp only [saturating_add, random_mod]
    omega

/-- Embedding of `rand.rs::Randoms`: the iteration state.  The owned random
source is modelled as a stream of raw entropy words `rng : Nat → Nat`;
drawing consumes the head and shifts the stream. -/
structure Randoms where
  appended : Option Nat
  lower_limit : Nat
  upper_limit : Nat
  amount : Nat
  rng : Nat → Nat

/-- Embedding of `rand.rs::Randoms::new`. -/
def Randoms.new (lower_limit upper_limit : Nat) (amount : Nat) (rng : Nat → Nat) :
    Randoms :=
  { appended := none, lower_limit := lower_limit, upper_limit := upper_limit,
    amount := amount, rng := rng }

/-- Embedding of `rand.rs::Randoms::with_appended` (builder; replaces any
previously appended value). -/
def Randoms.with_appended (s : Randoms) (x : Nat) : Randoms :=
  { s with appended := some x }

/-- Embedding of `rand.rs::Randoms::gen_biguint`: one draw over
`[lower_limit, upper_limit)`; the owned source advances. -/
def Randoms.gen_biguint (w : Nat) (s : Randoms) : Option Nat × Randoms :=
  (gen_biguint_range w (s.rng 0) s.lower_limit s.upper_limit,
   { s with rng := fun n => s.rng (n + 1) })

/-- Embedding of `Iterator::next` for `rand.rs::Randoms`: the outer `none`
means the stream is exhausted; an inner `none` value propagates the
`gen_biguint_range` panic. -/
def Randoms.next (w : Nat) (s : Randoms) : Option (Option Nat × Randoms) :=
  if s.amount = 0 then none
  else if s.amount = 1 then
    match s.appended with
    | some x => some (some x, { s with appended := none, amount := s.amount - 1 })
    | none =>
      let p := Randoms.gen_biguint w s
      some (p.1, { p.2 with amount := p.2.amount - 1 })
  else
    let p := Randoms.gen_biguint w s
    some (p.1, { p.2 with amount := p.2.amount - 1 })

/-- Fuel-driven collection of the iterator (`fuel` bounds the number of
`next` calls; `amount` suffices).  `none` propagates a panic. -/
def Randoms.collectGo (w : Nat) : Nat → Randoms → Option (List Nat)
  | 0, _ => some []
  | fuel + 1, s =>
    match Randoms.next w s with
    | none => some []
    | some (none, _) => none
    | some (some v, s') => Option.map (fun l => v :: l) (Randoms.collectGo w fuel s')

/-- Collecting the whole iterator, as `collect::<Vec<_>>` does. -/
def Randoms.collect (w : Nat) (s : Randoms) : Option (List Nat) :=
  Randoms.collectGo w s.amount s

/-- One `collectGo` step when `next` yields a value (shared helper). -/
theorem collectGo_cons (w fuel : Nat) (s s' : Randoms) (v : Nat)
    (h : Randoms.next w s = some (some v, s')) :
    Randoms.collectGo w (fuel + 1) s
      = Option.map (fun l => v :: l) (Randoms.collectGo w fuel s') := by
  have hbody : Randoms.collectGo w (fuel + 1) s
      = match Randoms.next w s with
        | none => some []
        | some (none, _) => none
        | some (some u, t) => Option.map (fun l => u :: l) (Randoms.collectGo w fuel t) :=
    rfl
  rw [hbody, h]

/-- One `next` step on a state without an appended value and with positive
`amount`: a fresh draw is yielded, the source advances, `amount` drops. -/
theorem next_no_append (w low high n : Nat) (rng : Nat → Nat) (v : Nat)
    (hv : gen_biguint_range w (rng 0) low high = some v) :
    Randoms.next w ⟨none, low, high, n + 1, rng⟩
      = some (some v, ⟨none, low, high, n, fun j => rng (j + 1)⟩) := by
  have hredux : Randoms.next w ⟨none, low, high, n + 1, rng⟩
      = if n + 1 = 0 then none
        else if n + 1 = 1 then
          some (gen_biguint_range w (rng 0) low high,
            ⟨none, low, high, n + 1 - 1, fun j => rng (j + 1)⟩)
        else
          some (gen_biguint_range w (rng 0) low high,
            ⟨none, low, high, n + 1 - 1, fun j => rng (j + 1)⟩) := rfl
  rw [hredux, if_neg (Nat.succ_ne_zero n), hv]
  split <;> rfl

/-- One `next` step on a state with an appended value and `amount ≥ 2`:
the appended value is kept for later, a fresh draw is yielded. -/
theorem next_append_ge_two (w low high m x : Nat) (rng : Nat → Nat) (v : Nat)
    (hv : gen_biguint_range w (rng 0) low high = some v) :
    Randoms.next w ⟨some x, low, high, m + 2, rng⟩
      = some (some v, ⟨some x, low, high, m + 1, fun j => rng (j + 1)⟩) := by
  have hredux : Randoms.next w ⟨some x, low, high, m + 2, rng⟩
      = if m + 2 = 0 then none
        else if m + 2 = 1 then
          some (some x, ⟨none, low, high, m + 2 - 1, rng⟩)
        else
          some (gen_biguint_range w (rng 0) low high,
            ⟨some x, low, high, m + 2 - 1, fun j => rng (j + 1)⟩) := rfl
  rw [hredux, if_neg (show ¬(m + 2 = 0) by omega), if_neg (show ¬(m + 2 = 1) by omega),
    hv]
  rfl

/-- Collecting a state without an appended value yields exactly `amount`
values, all inside `[low, high)`. -/
theorem collectGo_no_append (w low high : Nat) (hlh : low < high)
    (hw : high < 2 ^ w) :
    ∀ n rng, ∃ l,
      Randoms.collectGo w n ⟨none, low, high, n, rng⟩ = some l ∧
      l.length = n ∧ ∀ u ∈ l, low ≤ u ∧ u < high := by
  intro n
  induction n with
  | zero =>
    intro rng
    exact ⟨[], rfl, rfl, by simp⟩
  | succ n ih =>
    intro rng
    obtain ⟨v, hv, hv1, hv2⟩ := gen_range_bounds w (rng 0) low high hlh hw
    obtain ⟨l, hl, hlen, hmem⟩ := ih (fun j => rng (j + 1))
    refine ⟨v :: l, ?_, by simp [hlen], ?_⟩
    · rw [collectGo_cons w n _ _ v (next_no_append w low high n rng v hv), hl]
      rfl
    · intro u hu
      rcases List.mem_cons.mp hu with h | h
      · subst h
        exact ⟨hv1, hv2⟩
      · exact hmem u h

/-- Collecting a state with an appended value `x` and `amount ≥ 1` yields
exactly `amount` values: draws inside `[low, high)` followed by `x` last. -/
theorem collectGo_append (w low high x : Nat) (hlh : low < high)
    (hw : high < 2 ^ w) :
    ∀ n rng, 1 ≤ n → ∃ l,
      Randoms.collectGo w n ⟨some x, low, high, n, rng⟩ = some l ∧
      l.length = n ∧ l.getLast? = some x ∧ ∀ u ∈ l.dropLast, low ≤ u ∧ u < high := by
  intro n
  induction n with
  | zero =>
    intro rng h
    exact absurd h (by omega)
  | succ m ih =>
    intro rng _
    rcases Nat.eq_zero_or_pos m with h0 | h0
    · subst h0
      exact ⟨[x], rfl, rfl, rfl, by simp⟩
    · obtain ⟨k, rfl⟩ : ∃ k, m = k + 1 := ⟨m - 1, by omega⟩
      obtain ⟨v, hv, hv1, hv2⟩ := gen_range_bounds w (rng 0) low high hlh hw
      obtain ⟨l, hl, hlen, hlast, hmem⟩ := ih (fun j => rng (j + 1)) (by omega)
      have hlne : l ≠ [] := by
        intro h
        rw [h] at hlen
        simp only [List.length_nil] at hlen
        omega
      rcases l with _ | ⟨b, t⟩
      · exact absurd rfl hlne
      refine ⟨v :: b :: t, ?_, by simpa using hlen, ?_, ?_⟩
      · rw [collectGo_cons w (k + 1) _ _ v (next_append_ge_two w low high k x rng v hv),
          hl]
        rfl
      · rw [List.getLast?_cons_cons]
        exact hlast
      · intro u hu
        rw [List.dropLast_cons₂] at hu
        rcases List.mem_cons.mp hu with h | h
        · subst h
          exact ⟨hv1, hv2⟩
        · exact hmem u h

/-- C7: over a valid range the iterator yields exactly `amount` values,
with or without an appended override (zero `amount` yields nothing even
with an override); with an override `v` and `amount ≥ 1` the final value is
`v` exactly and all preceding values lie in `[low, high)`; repeated
`with_appended` calls keep only the last value. -/
theorem randoms_spec (w low high amount v : Nat) (rng : Nat → Nat)
    (hlh : low < high) (hw : high < 2 ^ w) :
    (∃ l, Randoms.collect w (Randoms.new low high amount rng) = some l ∧
      l.length = amount ∧ ∀ u ∈ l, low ≤ u ∧ u < high) ∧
    (∃ l, Randoms.collect w ((Randoms.new low high amount rng).with_appended v)
        = some l ∧ l.length = amount ∧ (amount = 0 → l = []) ∧
      (1 ≤ amount → l.getLast? = some v ∧ ∀ u ∈ l.dropLast, low ≤ u ∧ u < high)) ∧
    (∀ (s : Randoms) (v1 v2 : Nat),
      (s.with_appended v1).with_appended v2 = s.with_appended v2) := by
  refine ⟨?_, ?_, fun s v1 v2 => rfl⟩
  · obtain ⟨l, hl, hlen, hmem⟩ := collectGo_no_append w low high hlh hw amount rng
    exact ⟨l, hl, hlen, hmem⟩
  · rcases Nat.eq_zero_or_pos amount with h0 | h0
    · subst h0
      exact ⟨[], rfl, rfl, fun _ => rfl, fun h => absurd h (by omega)⟩
    · obtain ⟨l, hl, hlen, hlast, hmem⟩ :=
        collectGo_append w low high v hlh hw amount rng h0
      exact ⟨l, hl, hlen, fun h => absurd h (by omega), fun _ => ⟨hlast, hmem⟩⟩

/-- Witness for C7 at `w = 4`, `low = 2`, `high = 5`, `amount = 3`, `v = 9`,
with the constant-zero entropy stream. -/
theorem randoms_spec_witness :
    (∃ l, Randoms.collect 4 (Randoms.new 2 5 3 (fun _ => 0)) = some l ∧
      l.length = 3 ∧ ∀ u ∈ l, 2 ≤ u ∧ u < 5) ∧
    (∃ l, Randoms.collect 4 ((Randoms.new 2 5 3 (fun _ => 0)).with_appended 9)
        = some l ∧ l.length = 3 ∧ ((3 : Nat) = 0 → l = []) ∧
      ((1 : Nat) ≤ 3 → l.getLast? = some 9 ∧ ∀ u ∈ l.dropLast, 2 ≤ u ∧ u < 5)) ∧
    (∀ (s : Randoms) (v1 v2 : Nat),
      (s.with_appended v1).with_appended v2 = s.with_appended v2) :=
  randoms_spec 4 2 5 3 9 (fun _ => 0) (by decide) (by decide)

/-- Modelled from the spec: `crate::common::MIN_BIT_LENGTH`, the policy
minimum bit length, lives in `common.rs`, which is not among the given
sources; the spec and the doc comment of `safe_prime::new` fix it at 128. -/
def MIN_BIT_LENGTH : Nat := 128

/-- Embedding of `error.rs::Error`: the two-variant taxonomy.  The payload of
`OsRngInitialization` (an opaque `rand::Error`) is modelled as a `Nat`. -/
inductive Error where
  | OsRngInitialization : Nat → Error
  | BitLength : Nat → Error
deriving DecidableEq

/-- Environment for the safe-prime front door: records how many times the OS
random source has been initialized, so that "never triggers RNG
initialization" is observable in the model. -/
structure Env where
  rngInits : Nat
deriving DecidableEq

/-- Model of `OsRng::default()`: initializes the OS random source (counted in
the environment) and hands back a source, modelled as a seed `Nat`. -/
def osRngDefault (env : Env) : Env × Nat :=
  ({ rngInits := env.rngInits + 1 }, 0)

/-- Embedding of `safe_prime.rs::new`.  The external safe-prime search
`from_rng` (re-exported `common::gen_safe_prime`, also outside the given
sources) is a parameter: it consumes the bit length and the random source and
either produces a prime or a `rand::Error` (modelled as `Nat`), which `new`
wraps into `Error::OsRngInitialization` via the `From` conversion. -/
def SafePrime.new (from_rng : Nat → Nat → Except Nat Nat) (bit_length : Nat)
    (env : Env) : Env × Except Error Nat :=
  if bit_length < MIN_BIT_LENGTH then
    (env, Except.error (Error.BitLength bit_length))
  else
    let p := osRngDefault env
    match from_rng bit_length p.2 with
    | Except.ok v => (p.1, Except.ok v)
    | Except.error err => (p.1, Except.error (Error.OsRngInitialization err))

/-- C8: a bit length below the policy minimum fails with
`Error::BitLength` carrying the requested length, without initializing the
OS random source; at or above the minimum, `new` never returns
`Error::BitLength` (its only error wraps the random-source failure). -/
theorem safe_prime_new_spec (from_rng : Nat → Nat → Except Nat Nat)
    (bit_length : Nat) (env : Env) :
    (bit_length < MIN_BIT_LENGTH →
      SafePrime.new from_rng bit_length env
        = (env, Except.error (Error.BitLength bit_length)) ∧
      (SafePrime.new from_rng bit_length env).1.rngInits = env.rngInits) ∧
    (MIN_BIT_LENGTH ≤ bit_length →
      ∀ req, (SafePrime.new from_rng bit_length env).2
        ≠ Except.error (Error.BitLength req)) := by
  constructor
  · intro hlt
    have h : SafePrime.new from_rng bit_length env
        = (env, Except.error (Error.BitLength bit_length)) := by
      unfold SafePrime.new
      rw [if_pos hlt]
    exact ⟨h, by rw [h]⟩
  · intro hge req
    unfold SafePrime.new
    rw [if_neg (by omega)]
    rcases hcall : from_rng bit_length (osRngDefault env).2 with err | v
    · simp [hcall]
    · simp [hcall]

/-- Witness for C8: both clauses at concrete inputs (`bit_length = 100`
below the minimum, `bit_length = 128` at the minimum), with a stub search
that always succeeds. -/
theorem safe_prime_new_spec_witness :
    ((100 : Nat) < MIN_BIT_LENGTH →
      SafePrime.new (fun _ _ => Except.ok 0) 100 ⟨0⟩
        = (⟨0⟩, Except.error (Error.BitLength 100)) ∧
      (SafePrime.new (fun _ _ => Except.ok 0) 100 ⟨0⟩).1.rngInits = Env.rngInits ⟨0⟩) ∧
    (MIN_BIT_LENGTH ≤ (128 : Nat) →
      ∀ req, (SafePrime.new (fun _ _ => Except.ok 0) 128 ⟨0⟩).2
        ≠ Except.error (Error.BitLength req)) :=
  safe_prime_new_spec (fun _ _ => Except.ok 0) 100 ⟨0⟩ |>.1 |> fun h =>
    ⟨fun _ => h (by decide), (safe_prime_new_spec (fun _ _ => Except.ok 0) 128 ⟨0⟩).2⟩

end GlassPumpkin
